import Mathlib

/-!
Verification of the Arc 4.1 streaming chat client: the SSE frame decoder and
stream session controller (frontend/src/api/completionsApi.ts,
streamCompletionWithEvents) and the transcript reconciler (frontend/src/App.tsx,
handleSendMessage and its callbacks), shallowly embedded in Lean.

JavaScript strings are modelled as lists of characters; JSON.parse (a host
primitive, not code of this repository) is modelled as a parameter
`jsonOf : Str → Option Js` supplied to the decoder, where a `none` result
models a JSON parse exception.
-/

/-- JavaScript strings are modelled as lists of characters. -/
abbrev Str := List Char

/-- The result of a successful JSON.parse: a JavaScript value taken from the
JSON fragment (null, boolean, number, string, array or object). -/
inductive Js where
  | null
  | bool (b : Bool)
  | num (n : Int)
  | str (s : Str)
  | arr (elems : List Js)
  | obj (fields : List (Str × Js))

/-- Property access `v.k` on a JavaScript value: a field of an object, and
`none` (undefined) for a missing field or a non-object. -/
def Js.getField : Js → Str → Option Js
  | .obj fs, k => fs.lookup k
  | _, _ => none

/-- JavaScript truthiness of a JSON value (used by the guards `data.text` and
`data.message` in the decoder dispatch). -/
def Js.truthy : Js → Bool
  | .null => false
  | .bool b => b
  | .num n => decide (n ≠ 0)
  | .str s => decide (s ≠ [])
  | .arr _ => true
  | .obj _ => true

mutual

/-- JavaScript ToString coercion of a JSON value, as applied by
`new Error(m)` when the server-sent `message` is a truthy non-string. -/
def Js.coerceStr : Js → Str
  | .null => "null".data
  | .bool true => "true".data
  | .bool false => "false".data
  | .num n => (toString n).data
  | .str s => s
  | .arr xs => Js.coerceList xs
  | .obj _ => "[object Object]".data

/-- Array ToString: elements coerced and joined by commas. -/
def Js.coerceList : List Js → Str
  | [] => []
  | [x] => Js.coerceStr x
  | x :: y :: xs => Js.coerceStr x ++ ',' :: Js.coerceList (y :: xs)

end

/-- Splitting a string at newline characters, mirroring the JavaScript
`buffer.split('\n')`: always returns at least one (possibly empty) part, and
a trailing newline yields a final empty part. -/
def splitNl : Str → List Str
  | [] => [[]]
  | c :: cs =>
    if c = '\n' then [] :: splitNl cs
    else
      match splitNl cs with
      | [] => [[c]]
      | l :: ls => (c :: l) :: ls

/-- JavaScript String.prototype.trim, as applied to the event name. -/
def trimBoth (s : Str) : Str :=
  ((s.dropWhile Char.isWhitespace).reverse.dropWhile Char.isWhitespace).reverse

/-- JavaScript String.prototype.includes, used by the catch-clause failure
classification. -/
def containsSub (pat s : Str) : Bool :=
  decide (List.IsInfix pat s)

/-- One retrieval citation as constructed by the `sources` dispatch: the
object fields `id`, `title`, `content`, `similarity`, `type` read off each
array element (undefined when absent). -/
structure Source where
  id : Option Js
  title : Option Js
  content : Option Js
  similarity : Option Js
  type : Option Js

/-- Building one Source record from one element of a `sources` payload. -/
def mkSource (v : Js) : Source :=
  { id := v.getField ("id".data)
    title := v.getField ("title".data)
    content := v.getField ("content".data)
    similarity := v.getField ("similarity".data)
    type := v.getField ("type".data) }

/-- One callback invocation observed by the caller of
streamCompletionWithEvents. -/
inductive CbEvent where
  | content (v : Js)
  | reasoning (v : Js)
  | sources (ss : List Source)
  | complete
  | error (msg : Str)

/-- Operations on the session timeout timer: arming it (setTimeout at session
start) and clearing it (clearTimeout). -/
inductive TimerOp where
  | arm (ms : Nat)
  | clear

/-- Whether a timer operation is a clear. -/
def TimerOp.isClear : TimerOp → Bool
  | .clear => true
  | .arm _ => false

/-- A terminal resolution reached inside the decode loop (the `return`
statements of the `error` and `done` cases). -/
inductive Term where
  | completeT
  | errorT (msg : Str)

/-- The callback corresponding to a terminal resolution. -/
def Term.toCb : Term → CbEvent
  | .completeT => .complete
  | .errorT m => .error m

/-- Whether a callback invocation is terminal (onComplete or onError). -/
def CbEvent.isTerminal : CbEvent → Bool
  | .complete => true
  | .error _ => true
  | _ => false

/-- The decode-loop variables that persist across lines: `currentEvent` and
`hasReceivedContent` from streamCompletionWithEvents. -/
structure EvState where
  currentEvent : Str
  hasReceivedContent : Bool

/-- The outcome of processing some lines: timer operations and callback
invocations performed in order, the updated loop variables, and the terminal
resolution when an `error` or `done` frame returned early. -/
structure LinesOut where
  timer : List TimerOp
  events : List CbEvent
  state : EvState
  halt : Option Term

/-- The server-supplied error message, `data.message || 'Unknown error from
server'`, with JavaScript string coercion of a truthy non-string. -/
def errMsgOf : Option Js → Str
  | some m => if m.truthy then m.coerceStr else "Unknown error from server".data
  | none => "Unknown error from server".data

/-- The line tag of an event-name line. -/
def evLineTag : Str := "event: ".data

/-- The line tag of a data line. -/
def dataLineTag : Str := "data: ".data

/-- The payload field read by the content and reasoning cases. -/
def textKey : Str := "text".data

/-- The payload field read by the error case. -/
def messageKey : Str := "message".data

/-- The recognized event names of the protocol. -/
def nameContent : Str := "content".data

/-- The reasoning event name. -/
def nameReasoning : Str := "reasoning".data

/-- The sources event name. -/
def nameSources : Str := "sources".data

/-- The error event name. -/
def nameError : Str := "error".data

/-- The done event name. -/
def nameDone : Str := "done".data

/-- The body of the `data: ` case of the decode loop: JSON.parse the payload
(a parse failure is swallowed and nothing happens) and dispatch on the
pending event name exactly as the switch statement does. -/
def dispatchData (jsonOf : Str → Option Js) (st : EvState) (dataStr : Str) : LinesOut :=
  match jsonOf dataStr with
  | none => ⟨[], [], st, none⟩
  | some data =>
    if st.currentEvent = nameContent then
      match data.getField textKey with
      | some t =>
        if t.truthy then ⟨[], [.content t], { st with hasReceivedContent := true }, none⟩
        else ⟨[], [], st, none⟩
      | none => ⟨[], [], st, none⟩
    else if st.currentEvent = nameReasoning then
      match data.getField textKey with
      | some t =>
        if t.truthy then ⟨[], [.reasoning t], st, none⟩
        else ⟨[], [], st, none⟩
      | none => ⟨[], [], st, none⟩
    else if st.currentEvent = nameSources then
      match data with
      | .arr xs => ⟨[], [.sources (xs.map mkSource)], st, none⟩
      | _ => ⟨[], [], st, none⟩
    else if st.currentEvent = nameError then
      ⟨[.clear], [], st, some (.errorT (errMsgOf (data.getField messageKey)))⟩
    else if st.currentEvent = nameDone then
      ⟨[.clear], [], st, some .completeT⟩
    else ⟨[], [], st, none⟩

/-- Processing of one complete line by the decode loop of
streamCompletionWithEvents: an `event: ` line stores the trimmed name, a
`data: ` line is dispatched on the pending event name, a blank line resets
`currentEvent`, anything else is ignored. -/
def processLine (jsonOf : Str → Option Js) (st : EvState) (line : Str) : LinesOut :=
  if evLineTag.isPrefixOf line then
    ⟨[], [], { st with currentEvent := trimBoth (line.drop 7) }, none⟩
  else if dataLineTag.isPrefixOf line then
    dispatchData jsonOf st (line.drop 6)
  else if line = [] then
    ⟨[], [], { st with currentEvent := [] }, none⟩
  else ⟨[], [], st, none⟩

/-- Processing of a list of complete lines in order, stopping at the first
terminal resolution exactly as the `return` statements do. -/
def processLines (jsonOf : Str → Option Js) (st : EvState) : List Str → LinesOut
  | [] => ⟨[], [], st, none⟩
  | l :: ls =>
    match processLine jsonOf st l with
    | ⟨t1, e1, st1, some t⟩ => ⟨t1, e1, st1, some t⟩
    | ⟨t1, e1, st1, none⟩ =>
      match processLines jsonOf st1 ls with
      | ⟨t2, e2, st2, h⟩ => ⟨t1 ++ t2, e1 ++ e2, st2, h⟩

/-- The full decoder state across chunks: the loop variables plus the
carried-over partial line `buffer`. -/
structure DecState where
  ev : EvState
  buffer : Str

/-- The outcome of processing some chunks. -/
structure ChunksOut where
  timer : List TimerOp
  events : List CbEvent
  state : DecState
  halt : Option Term

/-- Processing of one received chunk: append to the line buffer, split on
newlines, retain the trailing partial line, and process the complete lines. -/
def processChunk (jsonOf : Str → Option Js) (st : DecState) (chunk : Str) : ChunksOut :=
  match processLines jsonOf st.ev (splitNl (st.buffer ++ chunk)).dropLast with
  | ⟨t, e, st2, h⟩ => ⟨t, e, ⟨st2, (splitNl (st.buffer ++ chunk)).getLastD []⟩, h⟩

/-- Processing of the successive chunks of the byte stream, stopping at the
first terminal resolution. -/
def processChunks (jsonOf : Str → Option Js) (st : DecState) : List Str → ChunksOut
  | [] => ⟨[], [], st, none⟩
  | c :: cs =>
    match processChunk jsonOf st c with
    | ⟨t1, e1, st1, some t⟩ => ⟨t1, e1, st1, some t⟩
    | ⟨t1, e1, st1, none⟩ =>
      match processChunks jsonOf st1 cs with
      | ⟨t2, e2, st2, h⟩ => ⟨t1 ++ t2, e1 ++ e2, st2, h⟩

/-- The decoder state at session start: empty buffer, no pending event name,
no content received. -/
def initDec : DecState := ⟨⟨[], false⟩, []⟩

/-- A JavaScript Error as observed by the catch clause: its `name` and its
`message`. -/
structure JsError where
  name : Str
  message : Str

/-- The catch clause of streamCompletionWithEvents: an AbortError (the timeout
fired and cancelled the fetch) becomes a timeout error, a message containing
'Failed to fetch' or 'NetworkError' becomes a network error, anything else is
surfaced with its own message. -/
def classifyCatch (e : JsError) : CbEvent :=
  if e.name = "AbortError".data then
    .error ("Request timed out. Please try again.".data)
  else if containsSub ("Failed to fetch".data) e.message
      || containsSub ("NetworkError".data) e.message then
    .error ("Network error. Please check your connection.".data)
  else
    .error e.message

/-- How the byte stream ends when no terminal frame was decoded: a normal end
of stream (read() reports done) or a read that throws (for example the
AbortError raised when the timeout cancels the fetch mid-stream). -/
inductive StreamEnd where
  | normal
  | readThrows (e : JsError)

/-- The environment behaviors a session can encounter: the fetch itself
throws before any bytes arrive; the response is not ok (carrying the error
message already extracted from the response); the response has no body; or a
body is read as a list of chunks ending as described by StreamEnd. -/
inductive SessionInput where
  | fetchThrows (e : JsError)
  | respNotOk (msg : Str)
  | respNoBody
  | stream (chunks : List Str) (endk : StreamEnd)

/-- Everything a session performs that the caller can observe: timer
operations and callback invocations, each in order. -/
structure SessionOut where
  timer : List TimerOp
  events : List CbEvent

/-- The fixed session timeout of completionsApi.ts. -/
def REQUEST_TIMEOUT_MS : Nat := 30000

/-- The silent-close failure message. -/
def closedMsg : Str := "Connection closed without receiving response".data

/-- The whole of streamCompletionWithEvents: arm the timeout, run the
environment-determined control flow, and resolve exactly once.  A response
that is not ok or has no body clears the timeout and then throws into the
catch clause (which clears again); a decoded `error` or `done` frame resolved
inside the loop; a stream that ends with no terminal frame resolves by
whether any content was delivered; a read that throws lands in the catch
clause. -/
def runSession (jsonOf : Str → Option Js) : SessionInput → SessionOut
  | .fetchThrows e =>
    ⟨[.arm REQUEST_TIMEOUT_MS, .clear], [classifyCatch e]⟩
  | .respNotOk msg =>
    ⟨[.arm REQUEST_TIMEOUT_MS, .clear, .clear], [classifyCatch ⟨"Error".data, msg⟩]⟩
  | .respNoBody =>
    ⟨[.arm REQUEST_TIMEOUT_MS, .clear, .clear],
      [classifyCatch ⟨"Error".data, "No response body received".data⟩]⟩
  | .stream chunks endk =>
    match processChunks jsonOf initDec chunks with
    | ⟨tops, evs, _, some t⟩ => ⟨.arm REQUEST_TIMEOUT_MS :: tops, evs ++ [t.toCb]⟩
    | ⟨tops, evs, stf, none⟩ =>
      match endk with
      | .normal =>
        ⟨.arm REQUEST_TIMEOUT_MS :: (tops ++ [.clear]),
          evs ++ [if stf.ev.hasReceivedContent then .complete else .error closedMsg]⟩
      | .readThrows e =>
        ⟨.arm REQUEST_TIMEOUT_MS :: (tops ++ [.clear]), evs ++ [classifyCatch e]⟩

/-- Whether a callback invocation is a content delta. -/
def CbEvent.isContent : CbEvent → Bool
  | .content _ => true
  | _ => false

/-- Whether a callback trace contains at least one content delta. -/
def hasContentEvent (evs : List CbEvent) : Bool :=
  evs.any CbEvent.isContent

/-!  The transcript reconciler of App.tsx. -/

/-- One progress-indicator step (the SearchStep interface of types.ts). -/
structure SearchStep where
  id : Str
  label : Str
  status : Str

/-- One transcript message (the Message interface of types.ts). -/
structure Message where
  id : Str
  role : Str
  content : Str
  reasoning : Option Str
  timestamp : Int
  sources : Option (List Source)
  searchSteps : Option (List SearchStep)
  isThinking : Option Bool

/-- The retry snapshot captured by lastSendRef: the prior messages and the
trimmed input of the last send. -/
structure Snapshot where
  messages : List Message
  input : Str

/-- The App state the reconciler touches: the transcript, the input box, the
loading flag, the dismissible error notice, and the retry snapshot. -/
structure AppState where
  messages : List Message
  input : Str
  isLoading : Bool
  error : Option Str
  lastSend : Option Snapshot

/-- Message update applied by the onContent callback: append the chunk to the
target message's content and clear the thinking indicator. -/
def onContentMsg (tid chunk : Str) (m : Message) : Message :=
  if m.id = tid then { m with content := m.content ++ chunk, isThinking := some false } else m

/-- Message update applied by the onReasoning callback: append the chunk to
the target message's reasoning, starting from '' when absent. -/
def onReasoningMsg (tid chunk : Str) (m : Message) : Message :=
  if m.id = tid then { m with reasoning := some ((m.reasoning.getD []) ++ chunk) } else m

/-- Message update applied by the onSources callback: replace the sources and
set the terminal progress step. -/
def onSourcesMsg (tid : Str) (ss : List Source) (m : Message) : Message :=
  if m.id = tid then
    { m with sources := some ss
             searchSteps := some [⟨"1".data, "Analyzing documents...".data, "completed".data⟩] }
  else m

/-- Message update applied by the onComplete callback: clear the thinking
indicator. -/
def onCompleteMsg (tid : Str) (m : Message) : Message :=
  if m.id = tid then { m with isThinking := some false } else m

/-- The visible error annotation written into the message on onError. -/
def errorBanner (msg : Str) : Str := "**Error:** ".data ++ msg

/-- The error text used by the App onError callback,
`err.message || "Unknown error occurred"`. -/
def appErrMsg (e : JsError) : Str :=
  if e.message = [] then "Unknown error occurred".data else e.message

/-- The settled form of a message after onError: content replaced with the
visible error annotation, thinking indicator cleared. -/
def erroredMsg (errMsg : Str) (m : Message) : Message :=
  { m with content := errorBanner errMsg, isThinking := some false }

/-- Message update applied by the onError callback: replace the target
message's content with the visible error annotation and clear the thinking
indicator. -/
def onErrorMsg (tid errMsg : Str) (m : Message) : Message :=
  if m.id = tid then erroredMsg errMsg m else m

/-- The App onContent callback. -/
def appOnContent (tid chunk : Str) (st : AppState) : AppState :=
  { st with messages := st.messages.map (onContentMsg tid chunk) }

/-- The App onReasoning callback. -/
def appOnReasoning (tid chunk : Str) (st : AppState) : AppState :=
  { st with messages := st.messages.map (onReasoningMsg tid chunk) }

/-- The App onSources callback. -/
def appOnSources (tid : Str) (ss : List Source) (st : AppState) : AppState :=
  { st with messages := st.messages.map (onSourcesMsg tid ss) }

/-- The App onComplete callback: stop loading, settle the message, and clear
the retry snapshot (lastSendRef.current = null). -/
def appOnComplete (tid : Str) (st : AppState) : AppState :=
  { st with isLoading := false
            messages := st.messages.map (onCompleteMsg tid)
            lastSend := none }

/-- The App onError callback: stop loading, write the error annotation into
the target message, and surface the error out-of-band via the notice state.
The retry snapshot is left untouched. -/
def appOnError (tid : Str) (e : JsError) (st : AppState) : AppState :=
  { st with isLoading := false
            messages := st.messages.map (onErrorMsg tid (appErrMsg e))
            error := some (appErrMsg e) }

/-- The handleRetry handler: with a held snapshot, restore its input and
messages and dismiss the notice (the subsequent send re-issues the session);
with no snapshot held, do nothing. -/
def handleRetry (st : AppState) : AppState :=
  match st.lastSend with
  | some snap => { st with input := snap.input, messages := snap.messages, error := none }
  | none => st

/-- The first step labels of a send. -/
def initialSteps : List SearchStep := [⟨"1".data, "Processing...".data, "in-progress".data⟩]

/-- The synchronous beginning of handleSendMessage: guard on empty input or
loading, clear the notice, capture the retry snapshot, append the user
message and the pending assistant placeholder, and start loading. -/
def handleSendStart (st : AppState) (now : Int) (userMsgId botMsgId : Str) : AppState :=
  if trimBoth st.input = [] ∨ st.isLoading then st
  else
    let userMsg : Message :=
      { id := userMsgId, role := "user".data, content := trimBoth st.input,
        reasoning := none, timestamp := now, sources := none, searchSteps := none,
        isThinking := none }
    let botMsg : Message :=
      { id := botMsgId, role := "assistant".data, content := [],
        reasoning := some [], timestamp := now, sources := none,
        searchSteps := some initialSteps, isThinking := some true }
    { messages := st.messages ++ [userMsg, botMsg]
      input := []
      isLoading := true
      error := none
      lastSend := some ⟨st.messages, trimBoth st.input⟩ }

/-- One incremental delta dispatched to the reconciler. -/
inductive Delta where
  | content (s : Str)
  | reasoning (s : Str)

/-- Applying one delta to one message. -/
def applyDeltaMsg (tid : Str) (m : Message) : Delta → Message
  | .content s => onContentMsg tid s m
  | .reasoning s => onReasoningMsg tid s m

/-- Applying a sequence of deltas to one message in arrival order. -/
def applyDeltasMsg (tid : Str) (m : Message) (ds : List Delta) : Message :=
  ds.foldl (applyDeltaMsg tid) m

/-- Applying one delta to the App state. -/
def applyDeltaState (tid : Str) (st : AppState) : Delta → AppState
  | .content s => appOnContent tid s st
  | .reasoning s => appOnReasoning tid s st

/-- Applying a sequence of deltas to the App state in arrival order. -/
def applyDeltasState (tid : Str) (st : AppState) (ds : List Delta) : AppState :=
  ds.foldl (applyDeltaState tid) st

/-- The concatenation of the content payloads of a delta sequence, in order. -/
def contentsOf : List Delta → Str
  | [] => []
  | .content s :: ds => s ++ contentsOf ds
  | .reasoning _ :: ds => contentsOf ds

/-- The concatenation of the reasoning payloads of a delta sequence, in
order. -/
def reasoningsOf : List Delta → Str
  | [] => []
  | .content _ :: ds => reasoningsOf ds
  | .reasoning s :: ds => s ++ reasoningsOf ds

/-!  Concrete fixtures used by the witnesses. -/

/-- A concrete stand-in for JSON.parse used by the witnesses: it understands
two payload spellings and rejects everything else. -/
def demoParse (s : Str) : Option Js :=
  if s = "hi".data then some (.obj [("text".data, .str "Hi".data)])
  else if s = "ho".data then some (.obj [("text".data, .str "Ho".data)])
  else none

/-- A concrete in-flight assistant message used by witnesses. -/
def wMsg : Message :=
  { id := "b".data, role := "assistant".data, content := "x".data,
    reasoning := none, timestamp := 0, sources := none, searchSteps := none,
    isThinking := some true }

/-- A concrete interleaved delta sequence used by the C7 witness. -/
def wDeltas : List Delta :=
  [.content "A".data, .reasoning "r".data, .content "B".data, .reasoning "s".data]

/-- A concrete App state holding a retry snapshot, used by witnesses. -/
def wStateHeld : AppState :=
  { messages := [wMsg], input := "q".data, isLoading := false,
    error := none, lastSend := some ⟨[], "old".data⟩ }

/-- A concrete App state holding no retry snapshot, used by witnesses. -/
def wStateEmpty : AppState :=
  { messages := [wMsg], input := "q".data, isLoading := false,
    error := none, lastSend := none }

/-- A concrete message holding partial streamed content, used to refute the
claim that onError preserves such content. -/
def partialMsg : Message :=
  { id := "b".data, role := "assistant".data, content := "Hi".data,
    reasoning := none, timestamp := 0, sources := none, searchSteps := none,
    isThinking := some false }

/-- A concrete error used by witnesses. -/
def wErr : JsError := { name := "Error".data, message := "boom".data }

/-- A concrete App state whose in-flight message already holds partial
content, used by the C1 witness. -/
def wStatePartial : AppState :=
  { messages := [partialMsg], input := [], isLoading := true,
    error := none, lastSend := some ⟨[], "old".data⟩ }

/-- Prepending a partial first line to a split: the head part of the second
split is glued onto the carried prefix. -/
def consHead (p : Str) : List Str → List Str
  | [] => [p]
  | l :: ls => (p ++ l) :: ls

/-- Observable equivalence of two chunk-processing outcomes: same timer
operations, same events, same terminal resolution, and — when no terminal
occurred — the same decoder state. -/
def ObsEq (r r' : ChunksOut) : Prop :=
  r.timer = r'.timer ∧ r.events = r'.events ∧ r.halt = r'.halt ∧
    (r.halt = none → r.state = r'.state)

/-!  Lemmas about the transcript reconciler. -/

theorem applyDeltasMsg_cons (tid : Str) (m : Message) (d : Delta) (ds : List Delta) :
    applyDeltasMsg tid m (d :: ds) = applyDeltasMsg tid (applyDeltaMsg tid m d) ds := rfl

theorem applyDeltasMsg_target (tid : Str) (ds : List Delta) :
    ∀ m : Message, m.id = tid →
      (applyDeltasMsg tid m ds).content = m.content ++ contentsOf ds ∧
      (applyDeltasMsg tid m ds).reasoning.getD [] = m.reasoning.getD [] ++ reasoningsOf ds := by
  induction ds with
  | nil =>
    intro m _
    simp [applyDeltasMsg, contentsOf, reasoningsOf]
  | cons d ds ih =>
    intro m hm
    cases d with
    | content s =>
      have h1 : applyDeltasMsg tid m (.content s :: ds)
          = applyDeltasMsg tid { m with content := m.content ++ s, isThinking := some false } ds := by
        rw [applyDeltasMsg_cons]
        simp [applyDeltaMsg, onContentMsg, hm]
      have ih' := ih { m with content := m.content ++ s, isThinking := some false } (by simpa using hm)
      rw [h1]
      exact ⟨by rw [ih'.1]; simp [contentsOf, List.append_assoc],
             by rw [ih'.2]; simp [reasoningsOf]⟩
    | reasoning s =>
      have h1 : applyDeltasMsg tid m (.reasoning s :: ds)
          = applyDeltasMsg tid { m with reasoning := some (m.reasoning.getD [] ++ s) } ds := by
        rw [applyDeltasMsg_cons]
        simp [applyDeltaMsg, onReasoningMsg, hm]
      have ih' := ih { m with reasoning := some (m.reasoning.getD [] ++ s) } (by simpa using hm)
      rw [h1]
      exact ⟨by rw [ih'.1]; simp [contentsOf],
             by rw [ih'.2]; simp [reasoningsOf, List.append_assoc]⟩

theorem applyDeltasMsg_other (tid : Str) (ds : List Delta) :
    ∀ m : Message, m.id ≠ tid → applyDeltasMsg tid m ds = m := by
  induction ds with
  | nil => intro m _; rfl
  | cons d ds ih =>
    intro m hm
    have h1 : applyDeltaMsg tid m d = m := by
      cases d <;> simp [applyDeltaMsg, onContentMsg, onReasoningMsg, hm]
    rw [applyDeltasMsg_cons, h1]
    exact ih m hm

theorem applyDeltasState_messages (tid : Str) (ds : List Delta) :
    ∀ st : AppState, (applyDeltasState tid st ds).messages
      = st.messages.map (fun m => applyDeltasMsg tid m ds) := by
  induction ds with
  | nil => intro st; simp [applyDeltasState, applyDeltasMsg]
  | cons d ds ih =>
    intro st
    have hstep : (applyDeltaState tid st d).messages
        = st.messages.map (fun m => applyDeltaMsg tid m d) := by
      cases d <;> rfl
    calc (applyDeltasState tid st (d :: ds)).messages
        = (applyDeltasState tid (applyDeltaState tid st d) ds).messages := rfl
      _ = (applyDeltaState tid st d).messages.map (fun m => applyDeltasMsg tid m ds) := ih _
      _ = st.messages.map ((fun m => applyDeltasMsg tid m ds) ∘ (fun m => applyDeltaMsg tid m d)) := by
          rw [hstep, List.map_map]
      _ = st.messages.map (fun m => applyDeltasMsg tid m (d :: ds)) := rfl

/-!  Claim C7: interleaved content and reasoning deltas concatenate into two
independent accumulators. -/

/-- Claim C7: for every sequence of interleaved content and reasoning deltas
applied to the transcript, the target message's final content equals its prior
content followed by the concatenation of the content payloads in arrival
order, its final reasoning equals its prior reasoning followed by the
concatenation of the reasoning payloads in arrival order (each delta appends,
never replaces, and the two accumulators never cross-contaminate), other
messages are untouched, and the state-level callbacks act exactly as this
per-message fold. -/
theorem claim_C7 (tid : Str) (ds : List Delta) :
    (∀ m : Message, m.id = tid →
      (applyDeltasMsg tid m ds).content = m.content ++ contentsOf ds ∧
      (applyDeltasMsg tid m ds).reasoning.getD [] = m.reasoning.getD [] ++ reasoningsOf ds) ∧
    (∀ m : Message, m.id ≠ tid → applyDeltasMsg tid m ds = m) ∧
    (∀ st : AppState, (applyDeltasState tid st ds).messages
      = st.messages.map (fun m => applyDeltasMsg tid m ds)) :=
  ⟨applyDeltasMsg_target tid ds, applyDeltasMsg_other tid ds, applyDeltasState_messages tid ds⟩

/-- Witness for claim C7 at a concrete message and delta sequence. -/
theorem claim_C7_witness :
    (applyDeltasMsg ("b".data) wMsg wDeltas).content = wMsg.content ++ contentsOf wDeltas ∧
    (applyDeltasMsg ("b".data) wMsg wDeltas).reasoning.getD []
      = wMsg.reasoning.getD [] ++ reasoningsOf wDeltas :=
  (claim_C7 ("b".data) wDeltas).1 wMsg (by rfl)

/-!  Claim C9: the retry snapshot lifecycle. -/

/-- Claim C9: the retry snapshot is cleared when a session resolves via
onComplete and retained when it resolves via onError; invoking retry with no
snapshot held is a no-op; a send captures (overwrites) the single snapshot
slot with the prior messages and trimmed input; and retry restores exactly
the held snapshot's input and messages. -/
theorem claim_C9 :
    (∀ (tid : Str) (st : AppState), (appOnComplete tid st).lastSend = none) ∧
    (∀ (tid : Str) (e : JsError) (st : AppState), (appOnError tid e st).lastSend = st.lastSend) ∧
    (∀ st : AppState, st.lastSend = none → handleRetry st = st) ∧
    (∀ (st : AppState) (now : Int) (uid bid : Str), trimBoth st.input ≠ [] → st.isLoading = false →
      (handleSendStart st now uid bid).lastSend = some ⟨st.messages, trimBoth st.input⟩) ∧
    (∀ (st : AppState) (snap : Snapshot), st.lastSend = some snap →
      (handleRetry st).input = snap.input ∧ (handleRetry st).messages = snap.messages) := by
  refine ⟨fun tid st => rfl, fun tid e st => rfl, ?_, ?_, ?_⟩
  · intro st h
    simp [handleRetry, h]
  · intro st now uid bid h1 h2
    simp [handleSendStart, h1, h2]
  · intro st snap h
    simp [handleRetry, h]

/-- Witness for claim C9 at concrete states. -/
theorem claim_C9_witness :
    (appOnComplete ("b".data) wStateHeld).lastSend = none ∧
    (appOnError ("b".data) wErr wStateHeld).lastSend = wStateHeld.lastSend ∧
    handleRetry wStateEmpty = wStateEmpty ∧
    (handleSendStart wStateEmpty 5 ("u".data) ("b2".data)).lastSend
      = some ⟨wStateEmpty.messages, trimBoth wStateEmpty.input⟩ ∧
    (handleRetry wStateHeld).input = "old".data :=
  ⟨claim_C9.1 ("b".data) wStateHeld,
   claim_C9.2.1 ("b".data) wErr wStateHeld,
   claim_C9.2.2.1 wStateEmpty (by rfl),
   claim_C9.2.2.2.1 wStateEmpty 5 ("u".data) ("b2".data) (by decide) (by rfl),
   (claim_C9.2.2.2.2 wStateHeld ⟨[], "old".data⟩ (by rfl)).1⟩

/-!  Claim C1: what onError does to a message that already holds partial
content. -/

/-- Claim C1, counterexample: a message with partial content already streamed
("Hi") does not keep that content across onError — the code replaces it with
the visible error annotation unconditionally. -/
theorem claim_C1_counterexample :
    partialMsg.content ≠ [] ∧
    (onErrorMsg ("b".data) ("boom".data) partialMsg).content ≠ partialMsg.content := by
  decide

/-- Claim C1 as amended: onError settles the target message by replacing its
content with the visible error annotation unconditionally — also when partial
content had already streamed, which is thereby discarded — while the error is
additionally surfaced out-of-band via the dismissible notice and the retry
snapshot is retained. -/
theorem claim_C1_amended (tid : Str) (e : JsError) (st : AppState) (m : Message)
    (hm : m ∈ st.messages) (hid : m.id = tid) :
    (erroredMsg (appErrMsg e) m ∈ (appOnError tid e st).messages) ∧
    (appOnError tid e st).error = some (appErrMsg e) ∧
    (appOnError tid e st).lastSend = st.lastSend := by
  refine ⟨?_, rfl, rfl⟩
  have h1 : onErrorMsg tid (appErrMsg e) m = erroredMsg (appErrMsg e) m := by
    simp [onErrorMsg, hid]
  have h2 := List.mem_map_of_mem (onErrorMsg tid (appErrMsg e)) hm
  rw [h1] at h2
  simpa [appOnError] using h2

/-- Witness for the amended claim C1 at a concrete state. -/
theorem claim_C1_amended_witness :
    (erroredMsg (appErrMsg wErr) partialMsg
      ∈ (appOnError ("b".data) wErr wStatePartial).messages) ∧
    (appOnError ("b".data) wErr wStatePartial).error
      = some (appErrMsg wErr) ∧
    (appOnError ("b".data) wErr wStatePartial).lastSend
      = wStatePartial.lastSend :=
  claim_C1_amended ("b".data) wErr wStatePartial partialMsg
    (by simp [wStatePartial]) (by rfl)


/-!  Invariant lemmas about the decode loop. -/

theorem isContent_iff (e : CbEvent) : e.isContent = true ↔ ∃ v, e = CbEvent.content v := by
  cases e <;> simp [CbEvent.isContent]

theorem hasContentEvent_append (a b : List CbEvent) :
    hasContentEvent (a ++ b) = (hasContentEvent a || hasContentEvent b) := by
  simp [hasContentEvent, List.any_append]

theorem hasContentEvent_iff (evs : List CbEvent) :
    hasContentEvent evs = true ↔ ∃ v, CbEvent.content v ∈ evs := by
  constructor
  · intro h
    obtain ⟨e, he, hc⟩ := List.any_eq_true.mp h
    obtain ⟨v, rfl⟩ := (isContent_iff e).mp hc
    exact ⟨v, he⟩
  · rintro ⟨v, hv⟩
    exact List.any_eq_true.mpr ⟨.content v, hv, by simp [CbEvent.isContent]⟩

theorem dispatchData_invariants (jsonOf : Str → Option Js) (st : EvState) (s : Str) :
    ((dispatchData jsonOf st s).timer.all TimerOp.isClear = true) ∧
    (∀ e ∈ (dispatchData jsonOf st s).events, e.isTerminal = false) ∧
    ((dispatchData jsonOf st s).halt.isSome = true → (dispatchData jsonOf st s).timer ≠ []) ∧
    ((dispatchData jsonOf st s).state.currentEvent = st.currentEvent) ∧
    ((dispatchData jsonOf st s).state.hasReceivedContent
      = (st.hasReceivedContent || hasContentEvent (dispatchData jsonOf st s).events)) := by
  unfold dispatchData
  cases hj : jsonOf s with
  | none => simp [hj, hasContentEvent]
  | some data =>
    simp only [hj]
    split_ifs with h1 h2 h3 h4 h5
    · cases hgf : data.getField textKey with
      | none => simp [hgf, hasContentEvent]
      | some t =>
        by_cases ht : t.truthy
        · simp [hgf, ht, hasContentEvent, CbEvent.isContent, CbEvent.isTerminal]
        · simp [hgf, ht, hasContentEvent]
    · cases hgf : data.getField textKey with
      | none => simp [hgf, hasContentEvent]
      | some t =>
        by_cases ht : t.truthy
        · simp [hgf, ht, hasContentEvent, CbEvent.isContent, CbEvent.isTerminal]
        · simp [hgf, ht, hasContentEvent]
    · cases data <;> simp [hasContentEvent, CbEvent.isContent, CbEvent.isTerminal]
    · simp [hasContentEvent, TimerOp.isClear]
    · simp [hasContentEvent, TimerOp.isClear]
    · simp [hasContentEvent]

theorem processLine_invariants (jsonOf : Str → Option Js) (st : EvState) (line : Str) :
    ((processLine jsonOf st line).timer.all TimerOp.isClear = true) ∧
    (∀ e ∈ (processLine jsonOf st line).events, e.isTerminal = false) ∧
    ((processLine jsonOf st line).halt.isSome = true → (processLine jsonOf st line).timer ≠ []) ∧
    ((processLine jsonOf st line).state.hasReceivedContent
      = (st.hasReceivedContent || hasContentEvent (processLine jsonOf st line).events)) := by
  unfold processLine
  split_ifs with h1 h2 h3
  · simp [hasContentEvent]
  · obtain ⟨a, b, c, d, e⟩ := dispatchData_invariants jsonOf st (line.drop 6)
    exact ⟨a, b, c, e⟩
  · simp [hasContentEvent]
  · simp [hasContentEvent]

theorem processLines_invariants (jsonOf : Str → Option Js) (lines : List Str) :
    ∀ st : EvState,
    ((processLines jsonOf st lines).timer.all TimerOp.isClear = true) ∧
    (∀ e ∈ (processLines jsonOf st lines).events, e.isTerminal = false) ∧
    ((processLines jsonOf st lines).halt.isSome = true →
      (processLines jsonOf st lines).timer ≠ []) ∧
    ((processLines jsonOf st lines).state.hasReceivedContent
      = (st.hasReceivedContent || hasContentEvent (processLines jsonOf st lines).events)) := by
  induction lines with
  | nil => intro st; simp [processLines, hasContentEvent]
  | cons l ls ih =>
    intro st
    have hline := processLine_invariants jsonOf st l
    rcases hr : processLine jsonOf st l with ⟨t1, e1, st1, h1⟩
    rw [hr] at hline
    obtain ⟨ht1, he1, hh1, hc1⟩ := hline
    dsimp only at ht1 he1 hh1 hc1
    cases h1 with
    | some t =>
      simp only [processLines, hr]
      exact ⟨ht1, he1, fun _ => hh1 rfl, by simpa using hc1⟩
    | none =>
      have hrec := ih st1
      rcases hr2 : processLines jsonOf st1 ls with ⟨t2, e2, st2, h2⟩
      rw [hr2] at hrec
      obtain ⟨ht2, he2, hh2, hc2⟩ := hrec
      dsimp only at ht2 he2 hh2 hc2
      simp only [processLines, hr, hr2]
      refine ⟨?_, ?_, ?_, ?_⟩
      · simp [List.all_append, ht1, ht2]
      · intro e he
        rcases List.mem_append.mp he with h | h
        · exact he1 e h
        · exact he2 e h
      · intro hs
        have hne := hh2 hs
        intro hcontra
        rw [List.append_eq_nil] at hcontra
        exact hne hcontra.2
      · rw [hc2, hc1, hasContentEvent_append, Bool.or_assoc]

theorem processChunk_invariants (jsonOf : Str → Option Js) (st : DecState) (c : Str) :
    ((processChunk jsonOf st c).timer.all TimerOp.isClear = true) ∧
    (∀ e ∈ (processChunk jsonOf st c).events, e.isTerminal = false) ∧
    ((processChunk jsonOf st c).halt.isSome = true → (processChunk jsonOf st c).timer ≠ []) ∧
    ((processChunk jsonOf st c).state.ev.hasReceivedContent
      = (st.ev.hasReceivedContent || hasContentEvent (processChunk jsonOf st c).events)) := by
  have hl := processLines_invariants jsonOf (splitNl (st.buffer ++ c)).dropLast st.ev
  rcases hr : processLines jsonOf st.ev (splitNl (st.buffer ++ c)).dropLast with ⟨t1, e1, st1, h1⟩
  rw [hr] at hl
  obtain ⟨a, b, cc, d⟩ := hl
  dsimp only at a b cc d
  simp only [processChunk, hr]
  exact ⟨a, b, cc, d⟩

theorem processChunks_invariants (jsonOf : Str → Option Js) (chunks : List Str) :
    ∀ st : DecState,
    ((processChunks jsonOf st chunks).timer.all TimerOp.isClear = true) ∧
    (∀ e ∈ (processChunks jsonOf st chunks).events, e.isTerminal = false) ∧
    ((processChunks jsonOf st chunks).halt.isSome = true →
      (processChunks jsonOf st chunks).timer ≠ []) ∧
    ((processChunks jsonOf st chunks).state.ev.hasReceivedContent
      = (st.ev.hasReceivedContent || hasContentEvent (processChunks jsonOf st chunks).events)) := by
  induction chunks with
  | nil => intro st; simp [processChunks, hasContentEvent]
  | cons c cs ih =>
    intro st
    have hch := processChunk_invariants jsonOf st c
    rcases hr : processChunk jsonOf st c with ⟨t1, e1, st1, h1⟩
    rw [hr] at hch
    obtain ⟨ht1, he1, hh1, hc1⟩ := hch
    dsimp only at ht1 he1 hh1 hc1
    cases h1 with
    | some t =>
      simp only [processChunks, hr]
      exact ⟨ht1, he1, fun _ => hh1 rfl, by simpa using hc1⟩
    | none =>
      have hrec := ih st1
      rcases hr2 : processChunks jsonOf st1 cs with ⟨t2, e2, st2, h2⟩
      rw [hr2] at hrec
      obtain ⟨ht2, he2, hh2, hc2⟩ := hrec
      dsimp only at ht2 he2 hh2 hc2
      simp only [processChunks, hr, hr2]
      refine ⟨?_, ?_, ?_, ?_⟩
      · simp [List.all_append, ht1, ht2]
      · intro e he
        rcases List.mem_append.mp he with h | h
        · exact he1 e h
        · exact he2 e h
      · intro hs
        have hne := hh2 hs
        intro hcontra
        rw [List.append_eq_nil] at hcontra
        exact hne hcontra.2
      · rw [hc2, hc1, hasContentEvent_append, Bool.or_assoc]

theorem classifyCatch_isTerminal (e : JsError) : (classifyCatch e).isTerminal = true := by
  unfold classifyCatch
  split_ifs <;> simp [CbEvent.isTerminal]

theorem toCb_isTerminal (t : Term) : t.toCb.isTerminal = true := by
  cases t <;> simp [Term.toCb, CbEvent.isTerminal]

theorem dataLineTag_isPrefixOf (s : Str) : dataLineTag.isPrefixOf (dataLineTag ++ s) = true := by
  show (['d', 'a', 't', 'a', ':', ' '] : Str).isPrefixOf (['d', 'a', 't', 'a', ':', ' '] ++ s)
    = true
  simp [List.isPrefixOf_cons₂]

theorem processLine_dataLine (jsonOf : Str → Option Js) (st : EvState) (s : Str) :
    processLine jsonOf st (dataLineTag ++ s) = dispatchData jsonOf st s := by
  have hev : evLineTag.isPrefixOf (dataLineTag ++ s) = false := rfl
  have hdrop : (dataLineTag ++ s).drop 6 = s := rfl
  unfold processLine
  rw [if_neg (by simp [hev]), if_pos (dataLineTag_isPrefixOf s), hdrop]

/-!  Claim C3: exactly one terminal callback per session. -/

/-- Claim C3: for every session input — fetch failure before any bytes,
non-ok HTTP response, missing body, or any byte stream with any ending —
the callback trace ends in exactly one terminal callback (onComplete or
onError) and contains no other terminal callback. -/
theorem claim_C3 (jsonOf : Str → Option Js) (input : SessionInput) :
    ∃ pre last, (runSession jsonOf input).events = pre ++ [last] ∧
      last.isTerminal = true ∧ ∀ e ∈ pre, e.isTerminal = false := by
  cases input with
  | fetchThrows e =>
    exact ⟨[], classifyCatch e, rfl, classifyCatch_isTerminal e, by simp⟩
  | respNotOk msg =>
    exact ⟨[], classifyCatch ⟨"Error".data, msg⟩, rfl, classifyCatch_isTerminal _, by simp⟩
  | respNoBody =>
    exact ⟨[], classifyCatch ⟨"Error".data, "No response body received".data⟩, rfl,
      classifyCatch_isTerminal _, by simp⟩
  | stream chunks endk =>
    have hinv := processChunks_invariants jsonOf chunks initDec
    rcases hr : processChunks jsonOf initDec chunks with ⟨tops, evs, stf, h⟩
    rw [hr] at hinv
    obtain ⟨_, hev, _, _⟩ := hinv
    dsimp only at hev
    cases h with
    | some t =>
      refine ⟨evs, t.toCb, ?_, toCb_isTerminal t, hev⟩
      simp [runSession, hr]
    | none =>
      cases endk with
      | normal =>
        by_cases hb : stf.ev.hasReceivedContent
        · refine ⟨evs, .complete, ?_, by simp [CbEvent.isTerminal], hev⟩
          simp [runSession, hr, hb]
        · refine ⟨evs, .error closedMsg, ?_, by simp [CbEvent.isTerminal], hev⟩
          simp [runSession, hr, hb]
      | readThrows e =>
        refine ⟨evs, classifyCatch e, ?_, classifyCatch_isTerminal e, hev⟩
        simp [runSession, hr]

/-!  Claim C2: silent-close resolution. -/

/-- Claim C2: when the stream ends with no terminal frame decoded, the
session resolves via onComplete exactly when at least one content delta was
delivered, and via onError with the closed-without-response condition when
none was. -/
theorem claim_C2 (jsonOf : Str → Option Js) (chunks : List Str)
    (hh : (processChunks jsonOf initDec chunks).halt = none) :
    ((∃ v, CbEvent.content v ∈ (processChunks jsonOf initDec chunks).events) →
      (runSession jsonOf (.stream chunks .normal)).events
        = (processChunks jsonOf initDec chunks).events ++ [CbEvent.complete]) ∧
    ((¬ ∃ v, CbEvent.content v ∈ (processChunks jsonOf initDec chunks).events) →
      (runSession jsonOf (.stream chunks .normal)).events
        = (processChunks jsonOf initDec chunks).events ++ [CbEvent.error closedMsg]) := by
  have hinv := processChunks_invariants jsonOf chunks initDec
  rcases hr : processChunks jsonOf initDec chunks with ⟨tops, evs, stf, h⟩
  rw [hr] at hinv hh
  obtain ⟨_, _, _, hc⟩ := hinv
  dsimp only at hc hh ⊢
  subst hh
  constructor
  · rintro ⟨v, hv⟩
    have hb : stf.ev.hasReceivedContent = true := by
      rw [hc]
      simp [initDec, (hasContentEvent_iff evs).mpr ⟨v, hv⟩]
    simp [runSession, hr, hb]
  · intro hno
    have hb : stf.ev.hasReceivedContent = false := by
      cases hcv : hasContentEvent evs with
      | false => rw [hc, hcv]; simp [initDec]
      | true => exact absurd ((hasContentEvent_iff evs).mp hcv) hno
    simp [runSession, hr, hb]

/-- Witness for claim C2 at a concrete one-chunk stream that delivers one
content delta and then closes without a done frame. -/
theorem claim_C2_witness :
    (runSession demoParse (.stream ["event: content\ndata: hi\n".data] .normal)).events
      = (processChunks demoParse initDec ["event: content\ndata: hi\n".data]).events
        ++ [CbEvent.complete] :=
  (claim_C2 demoParse ["event: content\ndata: hi\n".data] (by rfl)).1
    ⟨Js.str ("Hi".data), List.Mem.head _⟩

/-!  Claim C5: a malformed data line is skipped and decoding continues. -/

/-- Claim C5: a data line whose payload fails to parse as JSON is skipped
entirely — processing any line sequence containing it is identical to
processing the same sequence without it, so the stream is never aborted and
all subsequent valid frames still produce their events. -/
theorem claim_C5 (jsonOf : Str → Option Js) (st : EvState) (s : Str) (pre post : List Str)
    (hbad : jsonOf s = none) :
    processLines jsonOf st (pre ++ (dataLineTag ++ s) :: post)
      = processLines jsonOf st (pre ++ post) := by
  induction pre generalizing st with
  | nil =>
    have h1 : processLine jsonOf st (dataLineTag ++ s) = ⟨[], [], st, none⟩ := by
      rw [processLine_dataLine]
      unfold dispatchData
      rw [hbad]
    show processLines jsonOf st ((dataLineTag ++ s) :: post) = processLines jsonOf st post
    simp only [processLines, h1]
    rcases hr : processLines jsonOf st post with ⟨t2, e2, st2, h2⟩
    simp [hr]
  | cons l pre ih =>
    show processLines jsonOf st (l :: (pre ++ (dataLineTag ++ s) :: post))
      = processLines jsonOf st (l :: (pre ++ post))
    simp only [processLines]
    rcases hr : processLine jsonOf st l with ⟨t1, e1, st1, h1⟩
    cases h1 with
    | some t => simp
    | none => simp [ih st1]

/-- Witness for claim C5: a malformed frame between two valid ones. -/
theorem claim_C5_witness :
    processLines demoParse ⟨[], false⟩
      (["event: content".data] ++ (dataLineTag ++ "bad".data) :: ["data: hi".data])
      = processLines demoParse ⟨[], false⟩ (["event: content".data] ++ ["data: hi".data]) :=
  claim_C5 demoParse ⟨[], false⟩ ("bad".data) ["event: content".data] ["data: hi".data] (by rfl)

/-!  Claim C6: a done frame resolves the session at once. -/

/-- Claim C6: a decoded `done` frame — any data line whose payload parses,
arriving while the pending event name is `done`, whatever the payload value —
clears the timeout, halts with the complete resolution without emitting any
further event and without touching any later line; a halted chunk likewise
stops the whole chunk loop; and the complete resolution is delivered as the
onComplete callback. -/
theorem claim_C6 :
    (∀ (jsonOf : Str → Option Js) (st : EvState) (s : Str) (v : Js) (rest : List Str),
      jsonOf s = some v → st.currentEvent = nameDone →
      processLines jsonOf st ((dataLineTag ++ s) :: rest)
        = ⟨[TimerOp.clear], [], st, some Term.completeT⟩) ∧
    (∀ (jsonOf : Str → Option Js) (st : DecState) (c : Str) (cs : List Str),
      (processChunk jsonOf st c).halt = some Term.completeT →
      processChunks jsonOf st (c :: cs)
        = ⟨(processChunk jsonOf st c).timer, (processChunk jsonOf st c).events,
           (processChunk jsonOf st c).state, some Term.completeT⟩) ∧
    Term.toCb Term.completeT = CbEvent.complete := by
  refine ⟨?_, ?_, rfl⟩
  · intro jsonOf st s v rest hs hdone
    have n1 : ¬(nameDone = nameContent) := by decide
    have n2 : ¬(nameDone = nameReasoning) := by decide
    have n3 : ¬(nameDone = nameSources) := by decide
    have n4 : ¬(nameDone = nameError) := by decide
    have h1 : processLine jsonOf st (dataLineTag ++ s)
        = ⟨[TimerOp.clear], [], st, some Term.completeT⟩ := by
      rw [processLine_dataLine]
      unfold dispatchData
      rw [hs, hdone]
      dsimp only
      rw [if_neg n1, if_neg n2, if_neg n3, if_neg n4, if_pos (rfl : nameDone = nameDone)]
    simp only [processLines, h1]
  · intro jsonOf st c cs hh
    rcases hr : processChunk jsonOf st c with ⟨t1, e1, st1, h1⟩
    rw [hr] at hh
    dsimp only at hh
    subst hh
    simp [processChunks, hr]

/-- Witness for claim C6: a concrete done frame and a concrete halting
chunk followed by another chunk that is never processed. -/
theorem claim_C6_witness :
    (processLines demoParse ⟨nameDone, false⟩ ((dataLineTag ++ "hi".data) :: ["data: ho".data])
      = ⟨[TimerOp.clear], [], ⟨nameDone, false⟩, some Term.completeT⟩) ∧
    (processChunks demoParse initDec ["event: done\ndata: hi\n\n".data, "event: content\ndata: ho\n\n".data]
      = ⟨(processChunk demoParse initDec ("event: done\ndata: hi\n\n".data)).timer,
         (processChunk demoParse initDec ("event: done\ndata: hi\n\n".data)).events,
         (processChunk demoParse initDec ("event: done\ndata: hi\n\n".data)).state,
         some Term.completeT⟩) :=
  ⟨claim_C6.1 demoParse ⟨nameDone, false⟩ ("hi".data) (.obj [("text".data, .str "Hi".data)])
      ["data: ho".data] (by rfl) (by rfl),
   claim_C6.2.1 demoParse initDec ("event: done\ndata: hi\n\n".data)
      ["event: content\ndata: ho\n\n".data] (by rfl)⟩

/-!  Claim C10: the pending event name persists across data lines. -/

/-- Claim C10: a data line never changes the pending event name, so one
`event:` line followed by several data lines dispatches one callback per data
line (two content data lines yield two onContent calls), while a data line
seen with no pending event name dispatches nothing even when its payload is
valid JSON. -/
theorem claim_C10 :
    (∀ (jsonOf : Str → Option Js) (st : EvState) (s : Str),
      (processLine jsonOf st (dataLineTag ++ s)).state.currentEvent = st.currentEvent) ∧
    (∀ (jsonOf : Str → Option Js) (st : EvState) (s : Str) (v : Js),
      st.currentEvent = [] → jsonOf s = some v →
      processLine jsonOf st (dataLineTag ++ s) = ⟨[], [], st, none⟩) ∧
    (∀ (jsonOf : Str → Option Js) (st : EvState) (s1 s2 : Str) (d1 d2 t1 t2 : Js),
      jsonOf s1 = some d1 → d1.getField textKey = some t1 → t1.truthy = true →
      jsonOf s2 = some d2 → d2.getField textKey = some t2 → t2.truthy = true →
      (processLines jsonOf st
        ["event: content".data, dataLineTag ++ s1, dataLineTag ++ s2]).events
        = [CbEvent.content t1, CbEvent.content t2]) := by
  refine ⟨?_, ?_, ?_⟩
  · intro jsonOf st s
    rw [processLine_dataLine]
    exact (dispatchData_invariants jsonOf st s).2.2.2.1
  · intro jsonOf st s v hempty hs
    have m1 : ¬(([] : Str) = nameContent) := by decide
    have m2 : ¬(([] : Str) = nameReasoning) := by decide
    have m3 : ¬(([] : Str) = nameSources) := by decide
    have m4 : ¬(([] : Str) = nameError) := by decide
    have m5 : ¬(([] : Str) = nameDone) := by decide
    rw [processLine_dataLine]
    unfold dispatchData
    rw [hs, hempty]
    dsimp only
    rw [if_neg m1, if_neg m2, if_neg m3, if_neg m4, if_neg m5]
  · intro jsonOf st s1 s2 d1 d2 t1 t2 h1 hg1 ht1 h2 hg2 ht2
    have e1 : processLine jsonOf st ("event: content".data)
        = ⟨[], [], ⟨nameContent, st.hasReceivedContent⟩, none⟩ := rfl
    have l2 : ∀ b : Bool, dispatchData jsonOf ⟨nameContent, b⟩ s1
        = ⟨[], [CbEvent.content t1], ⟨nameContent, true⟩, none⟩ := by
      intro b
      simp [dispatchData, h1, hg1, ht1]
    have l3 : dispatchData jsonOf ⟨nameContent, true⟩ s2
        = ⟨[], [CbEvent.content t2], ⟨nameContent, true⟩, none⟩ := by
      simp [dispatchData, h2, hg2, ht2]
    simp [processLines, processLine_dataLine, e1, l2, l3]

/-- Witness for claim C10 at concrete lines with the demo JSON.parse. -/
theorem claim_C10_witness :
    ((processLine demoParse ⟨nameContent, false⟩ (dataLineTag ++ "hi".data)).state.currentEvent
      = nameContent) ∧
    (processLine demoParse ⟨[], false⟩ (dataLineTag ++ "hi".data) = ⟨[], [], ⟨[], false⟩, none⟩) ∧
    ((processLines demoParse ⟨[], false⟩
        ["event: content".data, dataLineTag ++ "hi".data, dataLineTag ++ "ho".data]).events
      = [CbEvent.content (.str "Hi".data), CbEvent.content (.str "Ho".data)]) :=
  ⟨claim_C10.1 demoParse ⟨nameContent, false⟩ ("hi".data),
   claim_C10.2.1 demoParse ⟨[], false⟩ ("hi".data) (.obj [("text".data, .str "Hi".data)])
     (by rfl) (by rfl),
   claim_C10.2.2 demoParse ⟨[], false⟩ ("hi".data) ("ho".data)
     (.obj [("text".data, .str "Hi".data)]) (.obj [("text".data, .str "Ho".data)])
     (.str "Hi".data) (.str "Ho".data)
     (by rfl) (by rfl) (by rfl) (by rfl) (by rfl) (by rfl)⟩

/-!  Claim C8: the session timeout. -/

/-- Claim C8: the timeout is armed exactly once per session, at session
start, with the fixed 30-second duration — it is never re-armed or reset when
a chunk arrives — and every exit path clears it at least once; when the
timeout fires it aborts the fetch, whose AbortError rejection resolves the
session via onError with the timeout error. -/
theorem claim_C8 :
    REQUEST_TIMEOUT_MS = 30000 ∧
    (∀ (jsonOf : Str → Option Js) (input : SessionInput),
      (runSession jsonOf input).timer.head? = some (TimerOp.arm REQUEST_TIMEOUT_MS) ∧
      (runSession jsonOf input).timer.tail.all TimerOp.isClear = true ∧
      (runSession jsonOf input).timer.tail ≠ []) ∧
    (∀ e : JsError, e.name = "AbortError".data →
      classifyCatch e = CbEvent.error ("Request timed out. Please try again.".data)) := by
  refine ⟨rfl, ?_, ?_⟩
  · intro jsonOf input
    cases input with
    | fetchThrows e => exact ⟨rfl, rfl, by simp [runSession]⟩
    | respNotOk msg => exact ⟨rfl, rfl, by simp [runSession]⟩
    | respNoBody => exact ⟨rfl, rfl, by simp [runSession]⟩
    | stream chunks endk =>
      have hinv := processChunks_invariants jsonOf chunks initDec
      rcases hr : processChunks jsonOf initDec chunks with ⟨tops, evs, stf, h⟩
      rw [hr] at hinv
      obtain ⟨ht, _, hh, _⟩ := hinv
      dsimp only at ht hh
      cases h with
      | some t =>
        have hne : tops ≠ [] := hh rfl
        refine ⟨?_, ?_, ?_⟩ <;> simp [runSession, hr, ht, hne]
      | none =>
        cases endk with
        | normal =>
          refine ⟨?_, ?_, ?_⟩ <;>
            simp [runSession, hr, List.all_append, ht, TimerOp.isClear]
        | readThrows e =>
          refine ⟨?_, ?_, ?_⟩ <;>
            simp [runSession, hr, List.all_append, ht, TimerOp.isClear]
  · intro e he
    unfold classifyCatch
    rw [if_pos he]

/-- Witness for claim C8 at a concrete session whose fetch is aborted by the
timeout. -/
theorem claim_C8_witness :
    ((runSession demoParse (.fetchThrows ⟨"AbortError".data, []⟩)).timer.head?
      = some (TimerOp.arm REQUEST_TIMEOUT_MS)) ∧
    ((runSession demoParse (.fetchThrows ⟨"AbortError".data, []⟩)).timer.tail ≠ []) ∧
    (classifyCatch ⟨"AbortError".data, []⟩
      = CbEvent.error ("Request timed out. Please try again.".data)) :=
  ⟨(claim_C8.2.1 demoParse (.fetchThrows ⟨"AbortError".data, []⟩)).1,
   (claim_C8.2.1 demoParse (.fetchThrows ⟨"AbortError".data, []⟩)).2.2,
   claim_C8.2.2 ⟨"AbortError".data, []⟩ (by rfl)⟩

/-!  Chunk-boundary independence: support lemmas about splitNl. -/

theorem splitNl_ne_nil (s : Str) : splitNl s ≠ [] := by
  induction s with
  | nil => simp [splitNl]
  | cons c cs ih =>
    simp only [splitNl]
    split
    · simp
    · split
      · simp
      · simp

theorem getLastD_mem {α : Type} (l : List α) (d : α) (h : l ≠ []) : l.getLastD d ∈ l := by
  induction l generalizing d with
  | nil => exact absurd rfl h
  | cons a t ih =>
    rw [List.getLastD_cons]
    cases t with
    | nil => simp [List.getLastD_nil]
    | cons b m => exact List.mem_cons_of_mem a (ih a (by simp))

theorem getLastD_append_of_ne_nil {α : Type} (l1 l2 : List α) (h : l2 ≠ []) :
    ∀ d : α, (l1 ++ l2).getLastD d = l2.getLastD d := by
  induction l1 with
  | nil => intro d; rfl
  | cons a t ih =>
    intro d
    obtain ⟨b, m, hb⟩ := List.exists_cons_of_ne_nil h
    rw [List.cons_append, List.getLastD_cons, ih a, hb, List.getLastD_cons, List.getLastD_cons]

theorem splitNl_append (a b : Str) :
    splitNl (a ++ b)
      = (splitNl a).dropLast ++ consHead ((splitNl a).getLastD []) (splitNl b) := by
  induction a with
  | nil =>
    obtain ⟨l, ls, hb⟩ := List.exists_cons_of_ne_nil (splitNl_ne_nil b)
    simp [splitNl, hb, consHead]
  | cons c cs ih =>
    by_cases hc : c = '\n'
    · subst hc
      obtain ⟨l, ls, hcs⟩ := List.exists_cons_of_ne_nil (splitNl_ne_nil cs)
      have h1 : splitNl ('\n' :: (cs ++ b)) = [] :: splitNl (cs ++ b) := by simp [splitNl]
      have h2 : splitNl ('\n' :: cs) = [] :: splitNl cs := by simp [splitNl]
      rw [List.cons_append, h1, h2, ih, hcs]
      simp [List.dropLast_cons₂, List.getLastD_cons, List.cons_append]
    · obtain ⟨l0, ls0, hcs⟩ := List.exists_cons_of_ne_nil (splitNl_ne_nil cs)
      obtain ⟨m, ms, hb⟩ := List.exists_cons_of_ne_nil (splitNl_ne_nil b)
      have h1 : ∀ x : Str, splitNl (c :: x)
          = match splitNl x with
            | [] => [[c]]
            | l :: ls => (c :: l) :: ls := by
        intro x
        simp [splitNl, hc]
      rw [List.cons_append, h1, h1, ih, hcs, hb]
      cases ls0 with
      | nil =>
        simp [consHead, List.getLastD_cons, List.getLastD_nil, List.cons_append]
      | cons l1 ls1 =>
        simp [consHead, List.dropLast_cons₂, List.getLastD_cons, List.cons_append]

theorem mem_splitNl_no_nl (s : Str) : ∀ l ∈ splitNl s, '\n' ∉ l := by
  induction s with
  | nil =>
    intro l hl
    simp [splitNl] at hl
    subst hl
    simp
  | cons c cs ih =>
    intro l hl
    by_cases hc : c = '\n'
    · subst hc
      have h2 : splitNl ('\n' :: cs) = [] :: splitNl cs := by simp [splitNl]
      rw [h2] at hl
      rcases List.mem_cons.mp hl with rfl | hl
      · simp
      · exact ih l hl
    · obtain ⟨l0, ls0, hcs⟩ := List.exists_cons_of_ne_nil (splitNl_ne_nil cs)
      have h1 : splitNl (c :: cs) = (c :: l0) :: ls0 := by simp [splitNl, hc, hcs]
      rw [h1] at hl
      rcases List.mem_cons.mp hl with rfl | hl
      · intro hmem
        rcases List.mem_cons.mp hmem with h | h
        · exact hc h.symm
        · exact ih l0 (by rw [hcs]; exact List.mem_cons_self l0 ls0) h
      · exact ih l (by rw [hcs]; exact List.mem_cons_of_mem l0 hl)

theorem splitNl_no_nl (s : Str) (h : '\n' ∉ s) : splitNl s = [s] := by
  induction s with
  | nil => rfl
  | cons c cs ih =>
    have hc : ¬(c = '\n') := by
      intro hh
      exact h (by rw [hh]; exact List.mem_cons_self _ _)
    have hcs : '\n' ∉ cs := fun hh => h (List.mem_cons_of_mem c hh)
    simp [splitNl, hc, ih hcs]

theorem no_nl_getLastD_splitNl (x : Str) : '\n' ∉ (splitNl x).getLastD [] :=
  mem_splitNl_no_nl x _ (getLastD_mem (splitNl x) [] (splitNl_ne_nil x))

theorem processLines_append_halt (jsonOf : Str → Option Js) (xs : List Str) :
    ∀ (st : EvState) (ys : List Str) (t : Term),
      (processLines jsonOf st xs).halt = some t →
      processLines jsonOf st (xs ++ ys) = processLines jsonOf st xs := by
  induction xs with
  | nil =>
    intro st ys t h
    simp [processLines] at h
  | cons l ls ih =>
    intro st ys t h
    rcases hr : processLine jsonOf st l with ⟨t1, e1, st1, h1⟩
    cases h1 with
    | some tt =>
      show processLines jsonOf st (l :: (ls ++ ys)) = _
      simp only [processLines, hr]
    | none =>
      rw [processLines, hr] at h
      dsimp only at h
      rcases hr2 : processLines jsonOf st1 ls with ⟨t2, e2, st2, h2⟩
      rw [hr2] at h
      dsimp only at h
      show processLines jsonOf st (l :: (ls ++ ys)) = _
      simp only [processLines, hr]
      rw [ih st1 ys t (by rw [hr2]; exact h), hr2]

theorem processLines_append_nohalt (jsonOf : Str → Option Js) (xs : List Str) :
    ∀ (st : EvState) (ys : List Str),
      (processLines jsonOf st xs).halt = none →
      processLines jsonOf st (xs ++ ys)
        = ⟨(processLines jsonOf st xs).timer
             ++ (processLines jsonOf (processLines jsonOf st xs).state ys).timer,
           (processLines jsonOf st xs).events
             ++ (processLines jsonOf (processLines jsonOf st xs).state ys).events,
           (processLines jsonOf (processLines jsonOf st xs).state ys).state,
           (processLines jsonOf (processLines jsonOf st xs).state ys).halt⟩ := by
  induction xs with
  | nil =>
    intro st ys _
    rcases hr : processLines jsonOf st ys with ⟨t2, e2, st2, h2⟩
    simp [processLines, hr]
  | cons l ls ih =>
    intro st ys h
    rcases hr : processLine jsonOf st l with ⟨t1, e1, st1, h1⟩
    cases h1 with
    | some tt =>
      rw [processLines, hr] at h
      dsimp only at h
      exact absurd h (by simp)
    | none =>
      rw [processLines, hr] at h
      dsimp only at h
      rcases hr2 : processLines jsonOf st1 ls with ⟨t2, e2, st2, h2⟩
      rw [hr2] at h
      dsimp only at h
      subst h
      show processLines jsonOf st (l :: (ls ++ ys)) = _
      simp only [processLines, hr]
      rw [ih st1 ys (by rw [hr2])]
      rw [hr2]
      rcases hr3 : processLines jsonOf st2 ys with ⟨t3, e3, st3, h3⟩
      simp [List.append_assoc]

theorem splitNl_glue (buf c2 : Str) (h : '\n' ∉ buf) :
    splitNl (buf ++ c2) = consHead buf (splitNl c2) := by
  rw [splitNl_append buf c2, splitNl_no_nl buf h]
  simp [List.getLastD_cons, List.getLastD_nil]

theorem splitNl_chunk_decomp (x c2 : Str) :
    splitNl (x ++ c2) = (splitNl x).dropLast ++ splitNl ((splitNl x).getLastD [] ++ c2) := by
  rw [splitNl_append x c2, splitNl_glue _ c2 (no_nl_getLastD_splitNl x)]

theorem chunk_lines_decomp (b c1 c2 : Str) :
    (splitNl (b ++ (c1 ++ c2))).dropLast
      = (splitNl (b ++ c1)).dropLast
        ++ (splitNl ((splitNl (b ++ c1)).getLastD [] ++ c2)).dropLast := by
  rw [← List.append_assoc, splitNl_chunk_decomp (b ++ c1) c2,
    List.dropLast_append_of_ne_nil _ (splitNl_ne_nil _)]

theorem chunk_buffer_decomp (b c1 c2 : Str) :
    (splitNl (b ++ (c1 ++ c2))).getLastD []
      = (splitNl ((splitNl (b ++ c1)).getLastD [] ++ c2)).getLastD [] := by
  rw [← List.append_assoc, splitNl_chunk_decomp (b ++ c1) c2,
    getLastD_append_of_ne_nil _ _ (splitNl_ne_nil _)]

theorem processChunk_append_halt (jsonOf : Str → Option Js) (st : DecState) (c1 c2 : Str)
    (t : Term) (h : (processChunk jsonOf st c1).halt = some t) :
    (processChunk jsonOf st (c1 ++ c2)).timer = (processChunk jsonOf st c1).timer ∧
    (processChunk jsonOf st (c1 ++ c2)).events = (processChunk jsonOf st c1).events ∧
    (processChunk jsonOf st (c1 ++ c2)).halt = some t := by
  rcases hr1 : processLines jsonOf st.ev (splitNl (st.buffer ++ c1)).dropLast
    with ⟨t1, e1, st1, h1⟩
  have hhalt : h1 = some t := by
    simp only [processChunk, hr1] at h
    exact h
  subst hhalt
  have happ := processLines_append_halt jsonOf ((splitNl (st.buffer ++ c1)).dropLast) st.ev
    ((splitNl ((splitNl (st.buffer ++ c1)).getLastD [] ++ c2)).dropLast) t (by rw [hr1])
  simp only [processChunk, chunk_lines_decomp, chunk_buffer_decomp, happ, hr1]
  exact ⟨trivial, trivial, trivial⟩

theorem processChunk_append_nohalt (jsonOf : Str → Option Js) (st : DecState) (c1 c2 : Str)
    (h : (processChunk jsonOf st c1).halt = none) :
    processChunk jsonOf st (c1 ++ c2)
      = ⟨(processChunk jsonOf st c1).timer
           ++ (processChunk jsonOf (processChunk jsonOf st c1).state c2).timer,
         (processChunk jsonOf st c1).events
           ++ (processChunk jsonOf (processChunk jsonOf st c1).state c2).events,
         (processChunk jsonOf (processChunk jsonOf st c1).state c2).state,
         (processChunk jsonOf (processChunk jsonOf st c1).state c2).halt⟩ := by
  rcases hr1 : processLines jsonOf st.ev (splitNl (st.buffer ++ c1)).dropLast
    with ⟨t1, e1, st1, h1⟩
  have hnone : h1 = none := by
    simp only [processChunk, hr1] at h
    exact h
  subst hnone
  have happ := processLines_append_nohalt jsonOf ((splitNl (st.buffer ++ c1)).dropLast) st.ev
    ((splitNl ((splitNl (st.buffer ++ c1)).getLastD [] ++ c2)).dropLast) (by rw [hr1])
  rw [hr1] at happ
  simp only [processChunk, chunk_lines_decomp, chunk_buffer_decomp, happ, hr1]

theorem obsEq_trans {a b c : ChunksOut} (h : ObsEq a b) (g : ObsEq b c) : ObsEq a c :=
  ⟨h.1.trans g.1, h.2.1.trans g.2.1, h.2.2.1.trans g.2.2.1,
   fun hn => (h.2.2.2 hn).trans (g.2.2.2 (h.2.2.1.symm.trans hn))⟩

theorem obsEq_symm {a b : ChunksOut} (h : ObsEq a b) : ObsEq b a :=
  ⟨h.1.symm, h.2.1.symm, h.2.2.1.symm,
   fun hn => (h.2.2.2 (h.2.2.1.trans hn)).symm⟩

theorem processChunk_buffer_no_nl (jsonOf : Str → Option Js) (st : DecState) (c : Str) :
    '\n' ∉ (processChunk jsonOf st c).state.buffer := by
  rcases hr : processLines jsonOf st.ev (splitNl (st.buffer ++ c)).dropLast
    with ⟨t1, e1, st1, h1⟩
  simp only [processChunk, hr]
  exact no_nl_getLastD_splitNl _

theorem processChunks_cons_halt (jsonOf : Str → Option Js) (st : DecState) (c : Str)
    (cs : List Str) (t : Term) (h : (processChunk jsonOf st c).halt = some t) :
    processChunks jsonOf st (c :: cs)
      = ⟨(processChunk jsonOf st c).timer, (processChunk jsonOf st c).events,
         (processChunk jsonOf st c).state, some t⟩ := by
  rcases hr : processChunk jsonOf st c with ⟨t1, e1, st1, h1⟩
  rw [hr] at h
  dsimp only at h
  subst h
  simp only [processChunks, hr]

theorem processChunks_cons_nohalt (jsonOf : Str → Option Js) (st : DecState) (c : Str)
    (cs : List Str) (h : (processChunk jsonOf st c).halt = none) :
    processChunks jsonOf st (c :: cs)
      = ⟨(processChunk jsonOf st c).timer
           ++ (processChunks jsonOf (processChunk jsonOf st c).state cs).timer,
         (processChunk jsonOf st c).events
           ++ (processChunks jsonOf (processChunk jsonOf st c).state cs).events,
         (processChunks jsonOf (processChunk jsonOf st c).state cs).state,
         (processChunks jsonOf (processChunk jsonOf st c).state cs).halt⟩ := by
  rcases hr : processChunk jsonOf st c with ⟨t1, e1, st1, h1⟩
  rw [hr] at h
  dsimp only at h
  subst h
  rcases hr2 : processChunks jsonOf st1 cs with ⟨t2, e2, st2, h2⟩
  simp only [processChunks, hr, hr2]

theorem processChunks_merge (jsonOf : Str → Option Js) (st : DecState) (c1 c2 : Str)
    (cs : List Str) :
    ObsEq (processChunks jsonOf st (c1 :: c2 :: cs))
      (processChunks jsonOf st ((c1 ++ c2) :: cs)) := by
  cases hh1 : (processChunk jsonOf st c1).halt with
  | some t =>
    obtain ⟨ha, hb, hc⟩ := processChunk_append_halt jsonOf st c1 c2 t hh1
    rcases hr1 : processChunk jsonOf st c1 with ⟨T1, E1, S1, H1⟩
    rw [hr1] at hh1 ha hb
    dsimp only at hh1 ha hb
    subst hh1
    rcases hr12 : processChunk jsonOf st (c1 ++ c2) with ⟨T12, E12, S12, H12⟩
    rw [hr12] at ha hb hc
    dsimp only at ha hb hc
    subst ha
    subst hb
    subst hc
    refine ⟨?_, ?_, ?_, ?_⟩ <;> simp only [processChunks, hr1, hr12]
    intro hnn
    exact absurd hnn (by simp)
  | none =>
    have heq := processChunk_append_nohalt jsonOf st c1 c2 hh1
    rcases hr1 : processChunk jsonOf st c1 with ⟨T1, E1, S1, H1⟩
    rw [hr1] at hh1 heq
    dsimp only at hh1 heq
    subst hh1
    cases hh2 : (processChunk jsonOf S1 c2).halt with
    | some t =>
      rcases hr2 : processChunk jsonOf S1 c2 with ⟨T2, E2, S2, H2⟩
      rw [hr2] at hh2 heq
      dsimp only at hh2 heq
      subst hh2
      refine ⟨?_, ?_, ?_, ?_⟩ <;> simp only [processChunks, hr1, hr2, heq]
      intro hnn
      exact absurd hnn (by simp)
    | none =>
      rcases hr2 : processChunk jsonOf S1 c2 with ⟨T2, E2, S2, H2⟩
      rw [hr2] at hh2 heq
      dsimp only at hh2 heq
      subst hh2
      rcases hrc : processChunks jsonOf S2 cs with ⟨Tc, Ec, Sc, Hc⟩
      refine ⟨?_, ?_, ?_, ?_⟩ <;>
        simp only [processChunks, hr1, hr2, heq, hrc, List.append_assoc]
      intro hnn
      trivial

theorem processChunks_join_eq (jsonOf : Str → Option Js) (chunks : List Str) :
    ∀ st : DecState, '\n' ∉ st.buffer →
      ObsEq (processChunks jsonOf st chunks) (processChunks jsonOf st [chunks.flatten]) := by
  induction chunks with
  | nil =>
    intro st hbuf
    have h1 : processChunk jsonOf st [] = ⟨[], [], st, none⟩ := by
      have hsp : splitNl (st.buffer ++ []) = [st.buffer] := by
        rw [List.append_nil]
        exact splitNl_no_nl st.buffer hbuf
      simp only [processChunk, hsp]
      simp [processLines, List.getLastD_cons, List.getLastD_nil]
    rw [show (List.flatten ([] : List Str)) = [] from rfl]
    refine ⟨?_, ?_, ?_, ?_⟩ <;> simp only [processChunks, h1] <;> simp
  | cons c cs ih =>
    intro st hbuf
    have step1 : ObsEq (processChunks jsonOf st (c :: cs))
        (processChunks jsonOf st (c :: [cs.flatten])) := by
      cases hh1 : (processChunk jsonOf st c).halt with
      | some t =>
        rw [processChunks_cons_halt jsonOf st c cs t hh1,
          processChunks_cons_halt jsonOf st c [cs.flatten] t hh1]
        exact ⟨rfl, rfl, rfl, fun hnn => absurd hnn (by simp)⟩
      | none =>
        have hb1 := processChunk_buffer_no_nl jsonOf st c
        have ihS := ih (processChunk jsonOf st c).state hb1
        rw [processChunks_cons_nohalt jsonOf st c cs hh1,
          processChunks_cons_nohalt jsonOf st c [cs.flatten] hh1]
        refine ⟨?_, ?_, ?_, ?_⟩ <;> dsimp only
        · rw [ihS.1]
        · rw [ihS.2.1]
        · exact ihS.2.2.1
        · intro hnn
          exact ihS.2.2.2 hnn
    have step2 : ObsEq (processChunks jsonOf st (c :: [cs.flatten]))
        (processChunks jsonOf st [(c :: cs).flatten]) := by
      rw [show (c :: cs).flatten = c ++ cs.flatten from rfl]
      exact processChunks_merge jsonOf st c (cs.flatten) []
    exact obsEq_trans step1 step2

/-!  Claim C4: chunk boundaries carry no semantic meaning. -/

/-- Claim C4: two streams carrying the same bytes, split into chunks at
arbitrary (possibly different) points, produce the identical session outcome:
the same callback invocations with the same payloads in the same order, and
the same timer operations. -/
theorem claim_C4 (jsonOf : Str → Option Js) (endk : StreamEnd) (ch1 ch2 : List Str)
    (hjoin : ch1.flatten = ch2.flatten) :
    runSession jsonOf (.stream ch1 endk) = runSession jsonOf (.stream ch2 endk) := by
  have hbuf : '\n' ∉ initDec.buffer := by simp [initDec]
  have h1 := processChunks_join_eq jsonOf ch1 initDec hbuf
  have h2 := processChunks_join_eq jsonOf ch2 initDec hbuf
  rw [hjoin] at h1
  have hobs := obsEq_trans h1 (obsEq_symm h2)
  rcases hra : processChunks jsonOf initDec ch1 with ⟨Ta, Ea, Sa, Ha⟩
  rcases hrb : processChunks jsonOf initDec ch2 with ⟨Tb, Eb, Sb, Hb⟩
  rw [hra, hrb] at hobs
  obtain ⟨i1, i2, i3, i4⟩ := hobs
  dsimp only at i1 i2 i3 i4
  subst i1
  subst i2
  subst i3
  cases Ha with
  | some t => simp [runSession, hra, hrb]
  | none =>
    have hs : Sa = Sb := i4 rfl
    subst hs
    cases endk <;> simp [runSession, hra, hrb]

/-- Witness for claim C4: the same protocol bytes split at two different
points yield the same session outcome. -/
theorem claim_C4_witness :
    runSession demoParse
        (.stream ["event: content\nda".data, "ta: hi\n\nevent: done\ndata: hi\n\n".data] .normal)
      = runSession demoParse
        (.stream ["event: content\ndata: hi\n\nevent: done\ndata: hi\n\n".data] .normal) :=
  claim_C4 demoParse .normal
    ["event: content\nda".data, "ta: hi\n\nevent: done\ndata: hi\n\n".data]
    ["event: content\ndata: hi\n\nevent: done\ndata: hi\n\n".data] (by rfl)
